import Mathlib

/-!
Verification of the cpc-tss-converter pipeline (`src/modules/core_pipeline.py`
and the sibling step modules) against its natural-language specification.

Strings are modelled as lists of characters (`Str`), cells as strings; an
empty/`None`/NaN spreadsheet cell is the empty string, matching the code's
`str(cell.value).strip() if cell.value is not None else ""` convention.
Worksheets are modelled as lists of rows, each row a list of cell values;
cells beyond a row's recorded width read as empty.
-/

namespace CpcTss

/-- Text, modelled as a list of characters. -/
abbrev Str := List Char

/-- Whitespace test used by Python's `str.strip()` (space, tab, newline, ...). -/
def isWS (c : Char) : Bool := c.isWhitespace

/-- Left trim: drop leading whitespace, as Python `lstrip`. -/
def trimLeftS (s : Str) : Str := s.dropWhile isWS

/-- Right trim: drop trailing whitespace, as Python `rstrip`. -/
def trimRightS (s : Str) : Str := (s.reverse.dropWhile isWS).reverse

/-- `str.strip()`: drop leading and trailing whitespace. -/
def trimS (s : Str) : Str := trimRightS (trimLeftS s)

/-- Uppercasing, as Python `str.upper()` on ASCII data. -/
def toUpperS (s : Str) : Str := s.map Char.toUpper

/-- Lowercasing, as Python `str.lower()` on ASCII data. -/
def toLowerS (s : Str) : Str := s.map Char.toLower

/-- Substring test, as Python's `pat in s`. -/
def containsSub (pat : Str) : Str → Bool
  | [] => pat.isEmpty
  | c :: rest => pat.isPrefixOf (c :: rest) || containsSub pat rest

/-- Split a string at every character satisfying `p` (fragments between two
adjacent delimiter characters are empty).  Composed with the trim-and-drop-empty
post-processing below this coincides with Python's `re.split` on a character
class with `+` (runs), since run-splitting differs from single-character
splitting only by empty fragments. -/
def splitP (p : Char → Bool) : Str → List Str
  | [] => [[]]
  | c :: rest =>
    if p c then [] :: splitP p rest
    else
      match splitP p rest with
      | [] => [[c]]
      | f :: fs => (c :: f) :: fs

/-- Join fragments with a separator, as Python `sep.join(parts)`. -/
def joinSep (sep : Str) : List Str → Str
  | [] => []
  | [x] => x
  | x :: xs => x ++ sep ++ joinSep sep xs

theorem splitP_ne_nil (p : Char → Bool) (s : Str) : splitP p s ≠ [] := by
  cases s with
  | nil => simp [splitP]
  | cons c rest =>
    simp only [splitP]
    split
    · simp
    · cases h : splitP p rest <;> simp

/-- Every character of every fragment of `splitP` fails the delimiter test. -/
theorem splitP_no_delim (p : Char → Bool) (s : Str) :
    ∀ f ∈ splitP p s, ∀ c ∈ f, p c = false := by
  induction s with
  | nil => intro f hf c hc; simp [splitP] at hf; subst hf; simp at hc
  | cons a rest ih =>
    intro f hf c hc
    simp only [splitP] at hf
    by_cases hp : p a
    · simp [hp] at hf
      rcases hf with hf | hf
      · subst hf; simp at hc
      · exact ih f hf c hc
    · simp only [hp, if_false, Bool.false_eq_true, ite_false] at hf
      cases hfrag : splitP p rest with
      | nil => exact absurd hfrag (splitP_ne_nil p rest)
      | cons g gs =>
        rw [hfrag] at hf
        rcases List.mem_cons.mp hf with hf | hf
        · subst hf
          rcases List.mem_cons.mp hc with hc | hc
          · subst hc; simpa using hp
          · exact ih g (hfrag ▸ List.mem_cons_self g gs) c hc
        · exact ih f (hfrag ▸ List.mem_cons_of_mem g hf) c hc

theorem dropWhile_idem (p : α → Bool) (l : List α) :
    (l.dropWhile p).dropWhile p = l.dropWhile p := by
  induction l with
  | nil => simp
  | cons a l ih =>
    by_cases h : p a
    · rw [List.dropWhile_cons_of_pos h]; exact ih
    · rw [List.dropWhile_cons_of_neg h, List.dropWhile_cons_of_neg h]

theorem trimLeftS_idem (s : Str) : trimLeftS (trimLeftS s) = trimLeftS s :=
  dropWhile_idem isWS s

theorem trimRightS_idem (s : Str) : trimRightS (trimRightS s) = trimRightS s := by
  simp [trimRightS, List.reverse_reverse, dropWhile_idem]

/-- A prefix of a left-trimmed string is left-trimmed. -/
theorem trimLeftS_of_take (s : Str) (h : trimLeftS s = s) (n : Nat) :
    trimLeftS (s.take n) = s.take n := by
  cases s with
  | nil => simp [trimLeftS]
  | cons c rest =>
    cases n with
    | zero => simp [trimLeftS]
    | succ n =>
      by_cases hc : isWS c
      · exfalso
        have heq := h
        simp only [trimLeftS, List.dropWhile_cons_of_pos hc] at heq
        have hlen := congrArg List.length heq
        simp only [List.length_cons] at hlen
        have hle := (List.dropWhile_sublist (l := rest) isWS).length_le
        omega
      · simp [trimLeftS, List.dropWhile_cons_of_neg hc]

theorem trimRightS_is_take (s : Str) : ∃ n, trimRightS s = s.take n := by
  refine ⟨(s.reverse.dropWhile isWS).length, ?_⟩
  have h := List.takeWhile_append_dropWhile (p := isWS) (l := s.reverse)
  have hs : s = (s.reverse.dropWhile isWS).reverse ++ (s.reverse.takeWhile isWS).reverse := by
    have h2 : s.reverse.reverse = (s.reverse.takeWhile isWS ++ s.reverse.dropWhile isWS).reverse := by
      rw [h]
    rw [List.reverse_reverse, List.reverse_append] at h2
    exact h2
  rw [trimRightS]
  conv_rhs => rw [hs]
  rw [List.take_left' (by simp)]

theorem trimS_idem (s : Str) : trimS (trimS s) = trimS s := by
  unfold trimS
  obtain ⟨n, hn⟩ := trimRightS_is_take (trimLeftS s)
  have h1 : trimLeftS (trimRightS (trimLeftS s)) = trimRightS (trimLeftS s) := by
    rw [hn]
    exact trimLeftS_of_take (trimLeftS s) (trimLeftS_idem s) n
  rw [h1, trimRightS_idem]

theorem trimLeftS_sublist (s : Str) : List.Sublist (trimLeftS s) s :=
  List.dropWhile_sublist isWS

theorem trimRightS_sublist (s : Str) : List.Sublist (trimRightS s) s := by
  have h : List.Sublist (s.reverse.dropWhile isWS) s.reverse := List.dropWhile_sublist isWS
  have := h.reverse
  simpa [trimRightS] using this

theorem trimS_sublist (s : Str) : List.Sublist (trimS s) s :=
  ((trimRightS_sublist (trimLeftS s)).trans (trimLeftS_sublist s))

theorem mem_of_mem_trimS {c : Char} {s : Str} (h : c ∈ trimS s) : c ∈ s :=
  (trimS_sublist s).mem h

/-! ### Stage 2: multi-value fan-out (`CoreStep2Processor._search_article_info_in_dataframe`) -/

/-- Delimiter class for article names: `re.split(r'[\n;]+', ...)`. -/
def isNameDelim (c : Char) : Bool := c = '\n' || c = ';'

/-- Delimiter class for article numbers: `re.split(r'[,\n;]+', ...)`. -/
def isNumberDelim (c : Char) : Bool := c = ',' || c = '\n' || c = ';'

/-- Fan-out of a resolved field string: strip it, split on the delimiter class,
strip every fragment and discard empty fragments.  Splitting at single
delimiter characters and then discarding empty trimmed fragments coincides
with the code's `re.split` on delimiter runs, which differs only by the empty
fragments produced between adjacent delimiters. -/
def fanOut (delim : Char → Bool) (s : Str) : List Str :=
  ((splitP delim (trimS s)).map trimS).filter (fun x => x ≠ [])

/-- Article names are split on newline/semicolon runs. -/
def splitArticleNames (s : Str) : List Str := fanOut isNameDelim s

/-- Article numbers are split on comma/newline/semicolon runs. -/
def splitArticleNumbers (s : Str) : List Str := fanOut isNumberDelim s

theorem fanOut_mem {delim : Char → Bool} {s x : Str} (hx : x ∈ fanOut delim s) :
    x ≠ [] ∧ trimS x = x ∧ ∀ c ∈ x, delim c = false := by
  unfold fanOut at hx
  have hx' := List.mem_of_mem_filter hx
  have hne : x ≠ [] := by
    have := List.of_mem_filter hx
    simpa using this
  obtain ⟨f, hf, rfl⟩ := List.mem_map.mp hx'
  refine ⟨hne, trimS_idem f, ?_⟩
  intro c hc
  exact splitP_no_delim delim (trimS s) f hf c (mem_of_mem_trimS hc)

/-- C7: multi-value fan-out.  Every element of the returned name list and
number list is a non-empty, fully trimmed fragment containing none of the
respective delimiter characters; the lists are in source order (sublists of
the ordered trimmed fragments); and the spec's example holds: a name field
"A;B\nC" extracts to ["A", "B", "C"]. -/
theorem c7_multi_value_fan_out :
    (∀ s : Str, ∀ x ∈ splitArticleNames s,
        x ≠ [] ∧ trimS x = x ∧ ∀ c ∈ x, isNameDelim c = false) ∧
    (∀ s : Str, ∀ x ∈ splitArticleNumbers s,
        x ≠ [] ∧ trimS x = x ∧ ∀ c ∈ x, isNumberDelim c = false) ∧
    (∀ s : Str,
        List.Sublist (splitArticleNames s) ((splitP isNameDelim (trimS s)).map trimS)) ∧
    (∀ s : Str,
        List.Sublist (splitArticleNumbers s) ((splitP isNumberDelim (trimS s)).map trimS)) ∧
    splitArticleNames ("A;B\nC".toList) = ["A".toList, "B".toList, "C".toList] := by
  refine ⟨fun s x hx => fanOut_mem hx, fun s x hx => fanOut_mem hx,
    fun s => List.filter_sublist _, fun s => List.filter_sublist _, by decide⟩

/-- Witness for C7: the fan-out membership facts hold at a concrete input. -/
theorem c7_multi_value_fan_out_witness :
    "A b".toList ≠ [] ∧ trimS ("A b".toList) = "A b".toList ∧
      ∀ c ∈ ("A b".toList), isNameDelim c = false :=
  c7_multi_value_fan_out.1 (" A b ;; X".toList) ("A b".toList) (by decide)

/-! ### Stage 3: column combinations (`CoreStep3DataTransfer._apply_column_combinations`) -/

@[simp] theorem trimS_nil : trimS ([] : Str) = [] := rfl

/-- The cell source value collected for one source column by
`_apply_column_combinations`: `some` of the trimmed text when the column index
is within the row (`source_idx < len(row_data)`) and the trimmed text is
non-empty, `none` otherwise. -/
def combineSourceValue (row : List Str) (i : Nat) : Option Str :=
  if i < row.length then
    if trimS (row.getD i []) ≠ [] then some (trimS (row.getD i [])) else none
  else none

/-- One combination rule `(sourceColumns, separator)` applied to one data row,
following `_apply_column_combinations`: collect the trimmed values of the
source columns (0-based indices) that are in range with non-empty trimmed
text; the target cell is written with the separator-join exactly when every
source column contributed a value.  `none` means nothing is written to the
target column for this row. -/
def combineRow (sourceCols : List Nat) (sep : Str) (row : List Str) : Option Str :=
  let values := sourceCols.filterMap (combineSourceValue row)
  if values.length = sourceCols.length then some (joinSep sep values) else none

theorem filterMap_eq_map_of_all_some {α β : Type} {f : α → Option β} {g : α → β}
    {l : List α} (h : ∀ a ∈ l, f a = some (g a)) : l.filterMap f = l.map g := by
  induction l with
  | nil => simp
  | cons a l ih =>
    rw [List.filterMap_cons, h a (List.mem_cons_self a l), List.map_cons,
      ih (fun b hb => h b (List.mem_cons_of_mem a hb))]

theorem length_filterMap_lt_of_none {α β : Type} {f : α → Option β} {l : List α}
    {a : α} (ha : a ∈ l) (hfa : f a = none) : (l.filterMap f).length < l.length := by
  induction l with
  | nil => simp at ha
  | cons b l ih =>
    rw [List.filterMap_cons]
    rcases List.mem_cons.mp ha with rfl | ha'
    · rw [hfa]
      have := List.length_filterMap_le f l
      simp only [List.length_cons]
      omega
    · cases hfb : f b with
      | none =>
        have := List.length_filterMap_le f l
        simp only [List.length_cons]
        omega
      | some c =>
        have := ih ha'
        simp only [List.length_cons]
        omega

/-- C3: column combinations are all-or-nothing.  The target cell receives the
separator-join of the trimmed source values exactly when every source column
holds a non-empty trimmed value in the row (out-of-range columns read as
empty); otherwise nothing at all is written for that row. -/
theorem c3_combination_all_or_nothing (sourceCols : List Nat) (sep : Str) (row : List Str) :
    (combineRow sourceCols sep row
        = some (joinSep sep (sourceCols.map (fun i => trimS (row.getD i []))))
      ↔ ∀ i ∈ sourceCols, trimS (row.getD i []) ≠ []) ∧
    (combineRow sourceCols sep row = none ↔ ∃ i ∈ sourceCols, trimS (row.getD i []) = []) := by
  classical
  have hkey : ∀ i, combineSourceValue row i = some (trimS (row.getD i []))
      ↔ trimS (row.getD i []) ≠ [] := by
    intro i
    unfold combineSourceValue
    by_cases hi : i < row.length
    · by_cases hv : trimS (row.getD i []) = []
      · simp [hi, hv]
      · simp [hi, hv]
    · have hd : row.getD i [] = [] := List.getD_eq_default _ _ (Nat.le_of_not_lt hi)
      rw [hd]
      simp [hi]
  have hnone : ∀ i, combineSourceValue row i = none ↔ trimS (row.getD i []) = [] := by
    intro i
    unfold combineSourceValue
    by_cases hi : i < row.length
    · by_cases hv : trimS (row.getD i []) = []
      · simp [hi, hv]
      · simp [hi, hv]
    · have hd : row.getD i [] = [] := List.getD_eq_default _ _ (Nat.le_of_not_lt hi)
      rw [hd]
      simp [hi]
  have hmapFull : (∀ i ∈ sourceCols, trimS (row.getD i []) ≠ []) →
      sourceCols.filterMap (combineSourceValue row)
        = sourceCols.map (fun i => trimS (row.getD i [])) := by
    intro hall
    exact filterMap_eq_map_of_all_some (fun i hi => (hkey i).mpr (hall i hi))
  constructor
  · constructor
    · intro hsome i hi
      by_contra hempty
      have hlt := length_filterMap_lt_of_none hi ((hnone i).mpr hempty)
      unfold combineRow at hsome
      simp only at hsome
      split at hsome
      · next hlen => omega
      · exact Option.noConfusion hsome
    · intro hall
      unfold combineRow
      simp [hmapFull hall]
  · constructor
    · intro hnone'
      unfold combineRow at hnone'
      simp only at hnone'
      split at hnone'
      · exact Option.noConfusion hnone'
      · next hlen =>
        by_contra hnoempty
        push_neg at hnoempty
        rw [hmapFull hnoempty, List.length_map] at hlen
        exact hlen rfl
    · rintro ⟨i, hi, hempty⟩
      have hlt := length_filterMap_lt_of_none hi ((hnone i).mpr hempty)
      unfold combineRow
      simp only
      rw [if_neg (by omega)]

/-! ### Stage 3: column mapping (`CoreStep3DataTransfer._transfer_mapped_data`) -/

/-- The value written to the target cell for one `(sourceColumn, targetColumn)`
mapping pair and one data row, following `_transfer_mapped_data`: when the
0-based source index is within the row (`source_idx < len(row_data)`) and the
cell's trimmed text is non-empty, the cell's original value is written
unchanged; otherwise the target cell is left unset (`none`). -/
def mappedValue (row : List Str) (sourceIdx : Nat) : Option Str :=
  if sourceIdx < row.length then
    if trimS (row.getD sourceIdx []) ≠ [] then some (row.getD sourceIdx []) else none
  else none

/-- The value the claim says is written (stated from the claim, for comparison
with `mappedValue`): the trimmed text of the source cell when that trimmed
text is non-empty. -/
def claimMappedValue (row : List Str) (sourceIdx : Nat) : Option Str :=
  if trimS (row.getD sourceIdx []) ≠ [] then some (trimS (row.getD sourceIdx [])) else none

/-- C6 counterexample: for a row whose source cell is " X " the code writes
the untrimmed value " X ", while the claim requires the trimmed text "X". -/
theorem c6_counterexample :
    mappedValue [" X ".toList] 0 = some (" X ".toList) ∧
    claimMappedValue [" X ".toList] 0 = some ("X".toList) ∧
    (" X ".toList : Str) ≠ "X".toList := by
  exact ⟨by decide, by decide, by decide⟩

/-- C6 (amended): for every data row and mapping pair, the target cell
receives the source cell's original, untrimmed value exactly when the source
index is in range and the cell's trimmed text is non-empty; the target stays
unset when the source cell is empty, whitespace-only, or beyond the row's
width. -/
theorem c6_mapping_writes_raw_value (row : List Str) (sourceIdx : Nat) :
    (∀ v, mappedValue row sourceIdx = some v ↔
      sourceIdx < row.length ∧ v = row.getD sourceIdx [] ∧ trimS v ≠ []) ∧
    (mappedValue row sourceIdx = none ↔ trimS (row.getD sourceIdx []) = []) := by
  unfold mappedValue
  by_cases hi : sourceIdx < row.length
  · by_cases hv : trimS (row.getD sourceIdx []) = []
    · constructor
      · intro v
        rw [if_pos hi, if_neg (not_not_intro hv)]
        constructor
        · intro h; exact Option.noConfusion h
        · rintro ⟨h1, rfl, h3⟩; exact absurd hv h3
      · rw [if_pos hi, if_neg (not_not_intro hv)]
        exact iff_of_true rfl hv
    · constructor
      · intro v
        rw [if_pos hi, if_pos hv]
        constructor
        · intro h
          obtain rfl := (Option.some.inj h).symm
          exact ⟨hi, rfl, hv⟩
        · rintro ⟨h1, rfl, h3⟩
          rfl
      · rw [if_pos hi, if_pos hv]
        constructor
        · intro h; exact Option.noConfusion h
        · intro h; exact absurd h hv
  · have hd : row.getD sourceIdx [] = [] := List.getD_eq_default _ _ (Nat.le_of_not_lt hi)
    constructor
    · intro v
      simp only [if_neg hi]
      constructor
      · intro h; exact Option.noConfusion h
      · rintro ⟨h1, rfl, h3⟩; exact absurd h1 hi
    · rw [hd]
      simp [hi]

/-! ### Stage 3: header-anchor location -/

/-- Does a row contain a cell whose trimmed text contains the anchor
case-insensitively?  This is the per-row test of
`CoreStep3DataTransfer._find_data_in_dataframe`
(`self.header_pattern.upper() in cell_str.upper()`). -/
def rowMatchesAnchor (anchor : Str) (row : List Str) : Bool :=
  row.any (fun cell => containsSub (toUpperS anchor) (toUpperS (trimS cell)))

/-- Header-row scan of `_find_data_in_dataframe`: walk the rows from the top
(no 50-row or 30-column bound), return the index of the first row containing
a matching cell; return `none` when the anchor occurs nowhere (there is no
fallback row in this implementation). -/
def findHeaderAux (anchor : Str) (i : Nat) : List (List Str) → Option Nat
  | [] => none
  | r :: rs => if rowMatchesAnchor anchor r then some i else findHeaderAux anchor (i + 1) rs

/-- Header-row location in the core pipeline. -/
def findHeaderRowCore (anchor : Str) (grid : List (List Str)) : Option Nat :=
  findHeaderAux anchor 0 grid

/-- The header-row locator as the claim describes it (stated from the claim,
for comparison with `findHeaderRowCore`): scan only the first 50 rows and the
first 30 columns of each row, compare against the anchor verbatim
(case-sensitively), and fall back to a fixed default row when no cell in the
window matches.  This is the behaviour of the legacy
`Step3DataTransfer.find_header_row` (whose default row is 13). -/
def claimRowMatches (anchor : Str) (row : List Str) : Bool :=
  (row.take 30).any (fun cell => containsSub anchor (trimS cell))

/-- Claim-version header locator (bounded window, verbatim, fallback). -/
def claimHeaderRowAux (anchor : Str) (i : Nat) : List (List Str) → Option Nat
  | [] => none
  | r :: rs => if claimRowMatches anchor r then some i else claimHeaderRowAux anchor (i + 1) rs

/-- Claim-version header locator over the 50-row window with fallback. -/
def claimHeaderRow (anchor : Str) (defaultRow : Nat) (grid : List (List Str)) : Nat :=
  (claimHeaderRowAux anchor 0 (grid.take 50)).getD defaultRow

/-- C4 counterexample: on a sheet whose only anchor-bearing cell carries the
anchor in lowercase, the core pipeline matches it case-insensitively and
returns row 0, while the claimed verbatim comparison finds nothing and yields
the fallback row; and on a sheet without the anchor the core pipeline returns
no row at all instead of the claimed fallback. -/
theorem c4_counterexample :
    findHeaderRowCore ("HEADER".toList) [["my header here".toList]] = some 0 ∧
    claimHeaderRow ("HEADER".toList) 13 [["my header here".toList]] = 13 ∧
    findHeaderRowCore ("HEADER".toList) [["x".toList]] = none ∧
    claimHeaderRow ("HEADER".toList) 13 [["x".toList]] = 13 := by
  exact ⟨by decide, by decide, by decide, by decide⟩

theorem findHeaderAux_some_iff (anchor : Str) (grid : List (List Str)) :
    ∀ i r, findHeaderAux anchor i grid = some r ↔
      ∃ k, r = i + k ∧ k < grid.length ∧
        rowMatchesAnchor anchor (grid.getD k []) = true ∧
        ∀ j < k, rowMatchesAnchor anchor (grid.getD j []) = false := by
  induction grid with
  | nil => intro i r; simp [findHeaderAux]
  | cons g gs ih =>
    intro i r
    unfold findHeaderAux
    by_cases hg : rowMatchesAnchor anchor g
    · rw [if_pos hg]
      constructor
      · intro h
        refine ⟨0, by simpa using (Option.some.inj h).symm, by simp, by simpa using hg, ?_⟩
        intro j hj; omega
      · rintro ⟨k, rfl, hk, hmatch, hfirst⟩
        cases k with
        | zero => simp
        | succ k =>
          exact absurd (by simpa using hg) (by simpa using hfirst 0 (Nat.succ_pos k))
    · rw [if_neg hg]
      rw [ih (i + 1) r]
      constructor
      · rintro ⟨k, rfl, hk, hmatch, hfirst⟩
        refine ⟨k + 1, by omega, by simpa using hk, by simpa using hmatch, ?_⟩
        intro j hj
        cases j with
        | zero => simpa using hg
        | succ j => simpa using hfirst j (by omega)
      · rintro ⟨k, rfl, hk, hmatch, hfirst⟩
        cases k with
        | zero => exact absurd (by simpa using hmatch) (by simpa using hg)
        | succ k =>
          refine ⟨k, by omega, by simpa using hk, by simpa using hmatch, ?_⟩
          intro j hj
          simpa using hfirst (j + 1) (by omega)

theorem findHeaderAux_none_iff (anchor : Str) (grid : List (List Str)) :
    ∀ i, findHeaderAux anchor i grid = none ↔
      ∀ j < grid.length, rowMatchesAnchor anchor (grid.getD j []) = false := by
  induction grid with
  | nil => intro i; simp [findHeaderAux]
  | cons g gs ih =>
    intro i
    unfold findHeaderAux
    by_cases hg : rowMatchesAnchor anchor g
    · rw [if_pos hg]
      constructor
      · intro h; exact Option.noConfusion h
      · intro h
        exact absurd (by simpa using hg) (by simpa using h 0 (by simp))
    · rw [if_neg hg]
      rw [ih (i + 1)]
      constructor
      · intro h j hj
        cases j with
        | zero => simpa using hg
        | succ j => simpa using h j (by simpa using hj)
      · intro h j hj
        simpa using h (j + 1) (by simpa using hj)

/-- C4 (amended): the core pipeline's header-row location returns the index of
the first row, scanning all rows from the top with no 50x30 window, that
contains a cell whose trimmed text contains the anchor case-insensitively;
when no such cell exists anywhere it returns no row at all (there is no
fallback row).  The claimed bounded-window, case-sensitive, fallback behaviour
is that of the legacy `Step3DataTransfer.find_header_row`, modelled by
`claimHeaderRow`. -/
theorem c4_header_anchor_location (anchor : Str) (grid : List (List Str)) :
    (∀ r, findHeaderRowCore anchor grid = some r ↔
      r < grid.length ∧ rowMatchesAnchor anchor (grid.getD r []) = true ∧
        ∀ j < r, rowMatchesAnchor anchor (grid.getD j []) = false) ∧
    (findHeaderRowCore anchor grid = none ↔
      ∀ j < grid.length, rowMatchesAnchor anchor (grid.getD j []) = false) := by
  constructor
  · intro r
    rw [findHeaderRowCore, findHeaderAux_some_iff]
    constructor
    · rintro ⟨k, rfl, h⟩; simpa using h
    · intro h; exact ⟨r, by omega, h⟩
  · rw [findHeaderRowCore, findHeaderAux_none_iff]

/-! ### Stage 3: data-row extraction (`_find_data_in_dataframe`, lines 682-702) -/

/-- A row counts as data when some cell has non-empty trimmed text
(`any(str(cell).strip() for cell in row_data)`). -/
def rowHasContent (row : List Str) : Bool := row.any (fun c => trimS c ≠ [])

/-- The collection loop of `_find_data_in_dataframe`: walk every remaining row
to the end of the sheet, appending each row that has any non-empty cell; empty
rows are skipped and the walk continues past them. -/
def collectDataRows : List (List Str) → List (List Str)
  | [] => []
  | r :: rs => if rowHasContent r then r :: collectDataRows rs else collectDataRows rs

/-- Data-row extraction: rows are taken starting at `headerRow + offset`
(`data_start_offset` from the configuration) and collected to the last row. -/
def extractDataRows (grid : List (List Str)) (headerRow offset : Nat) : List (List Str) :=
  collectDataRows (grid.drop (headerRow + offset))

/-- Data-row extraction as the claim describes it (stated from the claim, for
comparison with `extractDataRows`): collect rows having a non-empty trimmed
cell among the referenced columns only, and stop at the first fully empty row
encountered after at least one row has been collected. -/
def claimCollectRows (cols : List Nat) (collected : Bool) : List (List Str) → List (List Str)
  | [] => []
  | r :: rs =>
    if rowHasContent r then
      if cols.any (fun c => trimS (r.getD c []) ≠ []) then
        r :: claimCollectRows cols true rs
      else claimCollectRows cols collected rs
    else if collected then [] else claimCollectRows cols collected rs

/-- Claim-version extraction over the same window. -/
def claimExtractDataRows (cols : List Nat) (grid : List (List Str)) (headerRow offset : Nat) :
    List (List Str) :=
  claimCollectRows cols false (grid.drop (headerRow + offset))

/-- C5 counterexample: with header row 0 and offset 0, on the sheet
[["x"], [], ["y"]] the code collects ["y"] even though it follows a fully
empty row after a collected row, while the claimed extraction stops at the
gap; so a row after a gap does appear in the result. -/
theorem c5_counterexample :
    extractDataRows [["x".toList], [], ["y".toList]] 0 0
        = [["x".toList], ["y".toList]] ∧
    claimExtractDataRows [0] [["x".toList], [], ["y".toList]] 0 0 = [["x".toList]] ∧
    ["y".toList] ∈ extractDataRows [["x".toList], [], ["y".toList]] 0 0 ∧
    ["y".toList] ∉ claimExtractDataRows [0] [["x".toList], [], ["y".toList]] 0 0 := by
  exact ⟨by decide, by decide, by decide, by decide⟩

theorem collectDataRows_eq_filter (l : List (List Str)) :
    collectDataRows l = l.filter rowHasContent := by
  induction l with
  | nil => rfl
  | cons r rs ih =>
    unfold collectDataRows
    by_cases hr : rowHasContent r
    · rw [if_pos hr, List.filter_cons_of_pos hr, ih]
    · rw [if_neg hr, List.filter_cons_of_neg (by simpa using hr), ih]

/-- C5 (amended): extraction begins at row `headerRow + offset` and collects,
in sheet order, exactly the rows having at least one non-empty trimmed cell in
any column (not only the mapped columns); fully empty rows are skipped and do
not terminate the walk, which always continues to the sheet's last row. -/
theorem c5_data_row_extraction (grid : List (List Str)) (headerRow offset : Nat) :
    extractDataRows grid headerRow offset
      = (grid.drop (headerRow + offset)).filter rowHasContent :=
  collectDataRows_eq_filter _

/-! ### Stage 4: transformations and duplicate removal (`CoreStep4DuplicateRemover`) -/

/-- Does a data row have content in the first 14 columns?  (`for col in
range(1, min(15, worksheet.max_column + 1))` in `_apply_data_transformations`;
cells beyond the row's width read as empty, which absorbs the worksheet-level
`max_column` bound.) -/
def rowHasDataFirst14 (row : List Str) : Bool :=
  (row.take 14).any (fun c => trimS c ≠ [])

/-- Column-A replacement (`column_a_replacements`): when column A's trimmed
text is non-empty and case-insensitively equals a replacement key, column A is
overwritten with the first matching key's replacement value. -/
def applyColAReplacement (repls : List (Str × Str)) (row : List Str) : List Str :=
  if trimS (row.getD 0 []) ≠ [] then
    match repls.find? (fun p => toLowerS p.1 = toLowerS (trimS (row.getD 0 []))) with
    | some p => row.set 0 p.2
    | none => row
  else row

/-- The H="SD"-clears-K rule (`column_h_k_logic.sd_empty_k`): when column H's
trimmed text equals "SD" case-insensitively and column K's trimmed text is
non-empty, column K is cleared to the empty string. -/
def applySdEmptyK (row : List Str) : List Str :=
  if toUpperS (trimS (row.getD 7 [])) = "SD".toList ∧ trimS (row.getD 10 []) ≠ [] then
    row.set 10 []
  else row

/-- One row of `_apply_data_transformations`: rows without content in the
first 14 columns are skipped; otherwise the column-A replacement and, when
`sd_empty_k` is enabled, the H/K rule are applied in that order. -/
def transformRow (repls : List (Str × Str)) (sdEmptyK : Bool) (row : List Str) : List Str :=
  if rowHasDataFirst14 row then
    if sdEmptyK then applySdEmptyK (applyColAReplacement repls row)
    else applyColAReplacement repls row
  else row

/-- `_apply_data_transformations` over the data region (the rows from
`data_start_row` to the last row; rows are transformed independently). -/
def transformDataRows (repls : List (Str × Str)) (sdEmptyK : Bool)
    (rows : List (List Str)) : List (List Str) :=
  rows.map (transformRow repls sdEmptyK)

/-- Greatest column count over the modelled region (`worksheet.max_column`). -/
def sheetMaxCol (rows : List (List Str)) : Nat :=
  rows.foldr (fun r m => max r.length m) 0

/-- The dedup comparison key of a row (`_extract_unique_rows`): the trimmed
cell texts at the comparison columns (1-based indices), restricted to columns
`1..limit` where `limit = min(worksheet.max_column, max_columns)`. -/
def comparisonKey (cols : List Nat) (limit : Nat) (row : List Str) : List Str :=
  ((List.range' 1 limit).filter (fun c => c ∈ cols)).map
    (fun c => trimS (row.getD (c - 1) []))

/-- The retained cells of a row (`full_row_cells`): columns `1..limit`. -/
def rowCells (limit : Nat) (row : List Str) : List Str :=
  (List.range limit).map (fun i => row.getD i [])

/-- First-occurrence scan of `_extract_unique_rows`: keep a row (its cells up
to the column limit) when its comparison key has not been seen before. -/
def extractUniqueAux (key trunc : List Str → List Str)
    (seen : List (List Str)) : List (List Str) → List (List Str)
  | [] => []
  | r :: rs =>
    if key r ∈ seen then extractUniqueAux key trunc seen rs
    else trunc r :: extractUniqueAux key trunc (key r :: seen) rs

/-- `_extract_unique_rows` over the data region. -/
def extractUniqueRows (cols : List Nat) (maxCols : Nat) (rows : List (List Str)) :
    List (List Str) :=
  extractUniqueAux (comparisonKey cols (min (sheetMaxCol rows) maxCols))
    (rowCells (min (sheetMaxCol rows) maxCols)) [] rows

/-- The Step-4 data rows produced by `remove_duplicates`: the data
transformations are applied to every data row first, and only then are the
comparison keys computed and the unique rows extracted. -/
def step4DataRows (repls : List (Str × Str)) (sdEmptyK : Bool) (cols : List Nat)
    (maxCols : Nat) (rows : List (List Str)) : List (List Str) :=
  extractUniqueRows cols maxCols (transformDataRows repls sdEmptyK rows)

theorem extractUniqueAux_key_not_mem_seen (key trunc : List Str → List Str)
    (hkt : ∀ r, key (trunc r) = key r) :
    ∀ (rows seen : List (List Str)) (x : List Str),
      x ∈ extractUniqueAux key trunc seen rows → key x ∉ seen := by
  intro rows
  induction rows with
  | nil => intro seen x hx; simp [extractUniqueAux] at hx
  | cons r rs ih =>
    intro seen x hx
    unfold extractUniqueAux at hx
    by_cases hr : key r ∈ seen
    · rw [if_pos hr] at hx
      exact ih seen x hx
    · rw [if_neg hr] at hx
      rcases List.mem_cons.mp hx with rfl | hx'
      · rw [hkt]; exact hr
      · intro hmem
        exact (ih _ x hx') (List.mem_cons_of_mem _ hmem)

theorem extractUniqueAux_pairwise (key trunc : List Str → List Str)
    (hkt : ∀ r, key (trunc r) = key r) :
    ∀ (rows seen : List (List Str)),
      (extractUniqueAux key trunc seen rows).Pairwise (fun a b => key a ≠ key b) := by
  intro rows
  induction rows with
  | nil => intro seen; simp [extractUniqueAux]
  | cons r rs ih =>
    intro seen
    unfold extractUniqueAux
    by_cases hr : key r ∈ seen
    · rw [if_pos hr]; exact ih seen
    · rw [if_neg hr]
      refine List.Pairwise.cons ?_ (ih _)
      intro b hb
      have hnm := extractUniqueAux_key_not_mem_seen key trunc hkt rs _ b hb
      rw [hkt]
      intro heq
      exact hnm (heq ▸ List.mem_cons_self _ _)

theorem extractUniqueAux_fixpoint (key trunc : List Str → List Str) :
    ∀ (l seen : List (List Str)),
      (∀ x ∈ l, key x ∉ seen) → l.Pairwise (fun a b => key a ≠ key b) →
      (∀ x ∈ l, trunc x = x) → extractUniqueAux key trunc seen l = l := by
  intro l
  induction l with
  | nil => intro seen _ _ _; rfl
  | cons a l ih =>
    intro seen hseen hpw htr
    unfold extractUniqueAux
    rw [if_neg (hseen a (List.mem_cons_self a l)), htr a (List.mem_cons_self a l)]
    congr 1
    apply ih
    · intro x hx hmem
      rcases List.mem_cons.mp hmem with heq | hmem'
      · exact ((List.pairwise_cons.mp hpw).1 x hx) heq.symm
      · exact hseen x (List.mem_cons_of_mem _ hx) hmem'
    · exact (List.pairwise_cons.mp hpw).2
    · intro x hx; exact htr x (List.mem_cons_of_mem _ hx)

theorem extractUniqueAux_first_occurrence (key trunc : List Str → List Str) :
    ∀ (rows seen : List (List Str)) (x : List Str),
      x ∈ extractUniqueAux key trunc seen rows →
      ∃ l₁ r l₂, rows = l₁ ++ r :: l₂ ∧ x = trunc r ∧ key r ∉ seen ∧
        ∀ y ∈ l₁, key y ≠ key r := by
  intro rows
  induction rows with
  | nil => intro seen x hx; simp [extractUniqueAux] at hx
  | cons a rs ih =>
    intro seen x hx
    unfold extractUniqueAux at hx
    by_cases ha : key a ∈ seen
    · rw [if_pos ha] at hx
      obtain ⟨l₁, r, l₂, rfl, hxr, hr, hfirst⟩ := ih seen x hx
      refine ⟨a :: l₁, r, l₂, rfl, hxr, hr, ?_⟩
      intro y hy
      rcases List.mem_cons.mp hy with rfl | hy'
      · exact fun heq => hr (heq ▸ ha)
      · exact hfirst y hy'
    · rw [if_neg ha] at hx
      rcases List.mem_cons.mp hx with rfl | hx'
      · exact ⟨[], a, rs, rfl, rfl, ha, by simp⟩
      · obtain ⟨l₁, r, l₂, rfl, hxr, hr, hfirst⟩ := ih _ x hx'
        have hra : key r ≠ key a := fun heq => hr (heq ▸ List.mem_cons_self _ _)
        refine ⟨a :: l₁, r, l₂, rfl, hxr,
          fun hmem => hr (List.mem_cons_of_mem _ hmem), ?_⟩
        intro y hy
        rcases List.mem_cons.mp hy with rfl | hy'
        · exact fun heq => hra heq.symm
        · exact hfirst y hy'

theorem extractUniqueAux_key_coverage (key trunc : List Str → List Str)
    (hkt : ∀ r, key (trunc r) = key r) :
    ∀ (rows seen : List (List Str)) (r : List Str), r ∈ rows →
      key r ∈ seen ∨ key r ∈ (extractUniqueAux key trunc seen rows).map key := by
  intro rows
  induction rows with
  | nil => intro seen r hr; simp at hr
  | cons a rs ih =>
    intro seen r hr
    unfold extractUniqueAux
    by_cases ha : key a ∈ seen
    · rw [if_pos ha]
      rcases List.mem_cons.mp hr with rfl | hr'
      · exact Or.inl ha
      · exact ih seen r hr'
    · rw [if_neg ha]
      rcases List.mem_cons.mp hr with rfl | hr'
      · right
        rw [List.map_cons, hkt]
        exact List.mem_cons_self _ _
      · rcases ih (key a :: seen) r hr' with hmem | hout
        · rcases List.mem_cons.mp hmem with heq | hseen'
          · right
            rw [List.map_cons, hkt, heq]
            exact List.mem_cons_self _ _
          · exact Or.inl hseen'
        · right
          rw [List.map_cons]
          exact List.mem_cons_of_mem _ hout

theorem rowCells_length (limit : Nat) (row : List Str) :
    (rowCells limit row).length = limit := by
  simp [rowCells]

theorem rowCells_getD (limit : Nat) (row : List Str) (i : Nat) (hi : i < limit) :
    (rowCells limit row).getD i [] = row.getD i [] := by
  unfold rowCells
  rw [List.getD_eq_getElem _ _ (by simpa using hi)]
  rw [List.getElem_map, List.getElem_range]

theorem comparisonKey_rowCells (cols : List Nat) (limit : Nat) (row : List Str) :
    comparisonKey cols limit (rowCells limit row) = comparisonKey cols limit row := by
  unfold comparisonKey
  apply List.map_congr_left
  intro c hc
  have hcr : c ∈ List.range' 1 limit := List.mem_of_mem_filter hc
  have hlt : c - 1 < limit := by
    have := List.mem_range'_1.mp hcr
    omega
  rw [rowCells_getD _ _ _ hlt]

theorem rowCells_idem (limit : Nat) (row : List Str) :
    rowCells limit (rowCells limit row) = rowCells limit row := by
  unfold rowCells
  apply List.map_congr_left
  intro i hi
  have hlt : i < limit := List.mem_range.mp hi
  exact rowCells_getD limit row i hlt

theorem sheetMaxCol_const :
    ∀ (rows : List (List Str)) (n : Nat), rows ≠ [] → (∀ r ∈ rows, r.length = n) →
      sheetMaxCol rows = n := by
  intro rows
  induction rows with
  | nil => intro n hne _; exact absurd rfl hne
  | cons a rs ih =>
    intro n hne hall
    have hstep : sheetMaxCol (a :: rs) = max a.length (sheetMaxCol rs) := rfl
    rw [hstep, hall a (List.mem_cons_self a rs)]
    cases rs with
    | nil => simp [sheetMaxCol]
    | cons b rs' =>
      rw [ih n (by simp) (fun r hr => hall r (List.mem_cons_of_mem a hr))]
      simp

theorem filter_eq_length_one_of_nodup {α : Type} [DecidableEq α] :
    ∀ (l : List α) (a : α), l.Nodup → a ∈ l → (l.filter (fun x => x = a)).length = 1 := by
  intro l
  induction l with
  | nil => intro a _ ha; simp at ha
  | cons b l ih =>
    intro a hnd ha
    rcases List.mem_cons.mp ha with rfl | ha'
    · rw [List.filter_cons_of_pos (by simp)]
      have hnotin : a ∉ l := (List.nodup_cons.mp hnd).1
      have hfil : l.filter (fun x => x = a) = [] := by
        rw [List.filter_eq_nil_iff]
        intro x hx
        simp only [decide_eq_true_eq]
        intro heq
        exact hnotin (heq ▸ hx)
      rw [hfil]
      rfl
    · have hba : b ≠ a := by
        intro heq
        exact (List.nodup_cons.mp hnd).1 (heq ▸ ha')
      rw [List.filter_cons_of_neg (by simpa using hba)]
      exact ih a (List.nodup_cons.mp hnd).2 ha'

theorem extractUniqueRows_count_one (cols : List Nat) (maxCols : Nat)
    (rows : List (List Str)) (r : List Str) (hr : r ∈ rows) :
    (((extractUniqueRows cols maxCols rows).map
        (comparisonKey cols (min (sheetMaxCol rows) maxCols))).filter
      (fun k => k = comparisonKey cols (min (sheetMaxCol rows) maxCols) r)).length = 1 := by
  unfold extractUniqueRows
  have hkt := comparisonKey_rowCells cols (min (sheetMaxCol rows) maxCols)
  rcases extractUniqueAux_key_coverage (comparisonKey cols (min (sheetMaxCol rows) maxCols))
      (rowCells (min (sheetMaxCol rows) maxCols)) hkt rows [] r hr with h | h
  · simp at h
  · have hpw := extractUniqueAux_pairwise (comparisonKey cols (min (sheetMaxCol rows) maxCols))
      (rowCells (min (sheetMaxCol rows) maxCols)) hkt rows []
    have hnodup : ((extractUniqueAux (comparisonKey cols (min (sheetMaxCol rows) maxCols))
        (rowCells (min (sheetMaxCol rows) maxCols)) [] rows).map
        (comparisonKey cols (min (sheetMaxCol rows) maxCols))).Nodup :=
      List.pairwise_map.mpr hpw
    exact filter_eq_length_one_of_nodup _ _ hnodup h

/-- C2: dedup is idempotent.  Applying `_extract_unique_rows` (with a fixed
comparison-column set and column cap) to its own output returns that output
unchanged; the retained rows have pairwise distinct comparison keys; and each
retained row is (the retained cells of) the first row in sheet order whose
key equals its key. -/
theorem c2_dedup_idempotent (cols : List Nat) (maxCols : Nat) (rows : List (List Str)) :
    extractUniqueRows cols maxCols (extractUniqueRows cols maxCols rows)
        = extractUniqueRows cols maxCols rows ∧
    (extractUniqueRows cols maxCols rows).Pairwise (fun a b =>
        comparisonKey cols (min (sheetMaxCol rows) maxCols) a
          ≠ comparisonKey cols (min (sheetMaxCol rows) maxCols) b) ∧
    (∀ x ∈ extractUniqueRows cols maxCols rows,
        ∃ l₁ r l₂, rows = l₁ ++ r :: l₂ ∧
          x = rowCells (min (sheetMaxCol rows) maxCols) r ∧
          ∀ y ∈ l₁, comparisonKey cols (min (sheetMaxCol rows) maxCols) y
            ≠ comparisonKey cols (min (sheetMaxCol rows) maxCols) r) := by
  have hkt := comparisonKey_rowCells cols (min (sheetMaxCol rows) maxCols)
  have hout : extractUniqueRows cols maxCols rows
      = extractUniqueAux (comparisonKey cols (min (sheetMaxCol rows) maxCols))
          (rowCells (min (sheetMaxCol rows) maxCols)) [] rows := rfl
  have hpw := extractUniqueAux_pairwise (comparisonKey cols (min (sheetMaxCol rows) maxCols))
    (rowCells (min (sheetMaxCol rows) maxCols)) hkt rows []
  have hfo : ∀ x ∈ extractUniqueRows cols maxCols rows,
      ∃ l₁ r l₂, rows = l₁ ++ r :: l₂ ∧
        x = rowCells (min (sheetMaxCol rows) maxCols) r ∧
        ∀ y ∈ l₁, comparisonKey cols (min (sheetMaxCol rows) maxCols) y
          ≠ comparisonKey cols (min (sheetMaxCol rows) maxCols) r := by
    intro x hx
    obtain ⟨l₁, r, l₂, heq, hxr, _, hfirst⟩ :=
      extractUniqueAux_first_occurrence (comparisonKey cols (min (sheetMaxCol rows) maxCols))
        (rowCells (min (sheetMaxCol rows) maxCols)) rows [] x (hout ▸ hx)
    exact ⟨l₁, r, l₂, heq, hxr, hfirst⟩
  refine ⟨?_, hout ▸ hpw, hfo⟩
  by_cases hnil : extractUniqueRows cols maxCols rows = []
  · rw [hnil]; rfl
  · have hlen : ∀ x ∈ extractUniqueRows cols maxCols rows,
        x.length = min (sheetMaxCol rows) maxCols := by
      intro x hx
      obtain ⟨l₁, r, l₂, _, rfl, _⟩ := hfo x hx
      exact rowCells_length _ r
    have hmax : sheetMaxCol (extractUniqueRows cols maxCols rows)
        = min (sheetMaxCol rows) maxCols :=
      sheetMaxCol_const _ _ hnil hlen
    have hlim2 : min (sheetMaxCol (extractUniqueRows cols maxCols rows)) maxCols
        = min (sheetMaxCol rows) maxCols := by
      rw [hmax]
      exact Nat.min_eq_left (Nat.min_le_right _ _)
    have hruns : extractUniqueRows cols maxCols (extractUniqueRows cols maxCols rows)
        = extractUniqueAux (comparisonKey cols (min (sheetMaxCol rows) maxCols))
            (rowCells (min (sheetMaxCol rows) maxCols)) []
            (extractUniqueRows cols maxCols rows) := by
      show extractUniqueAux
          (comparisonKey cols
            (min (sheetMaxCol (extractUniqueRows cols maxCols rows)) maxCols))
          (rowCells (min (sheetMaxCol (extractUniqueRows cols maxCols rows)) maxCols)) []
          (extractUniqueRows cols maxCols rows) = _
      rw [hlim2]
    rw [hruns]
    apply extractUniqueAux_fixpoint
    · intro x _ hmem
      simp at hmem
    · exact hout ▸ hpw
    · intro x hx
      obtain ⟨l₁, r, l₂, _, rfl, _⟩ := hfo x hx
      exact rowCells_idem _ r

/-- Witness for C2 at a concrete sheet with a duplicate row. -/
theorem c2_dedup_idempotent_witness :
    extractUniqueRows [1] 20 (extractUniqueRows [1] 20 [["a".toList], ["a".toList]])
        = extractUniqueRows [1] 20 [["a".toList], ["a".toList]] :=
  (c2_dedup_idempotent [1] 20 [["a".toList], ["a".toList]]).1

/-- C1: `remove_duplicates` applies the row-level transformations (column-A
replacement and the H="SD"-clears-K rule) to every data row before any
comparison key is computed: its data rows are exactly the unique rows of the
transformed data, and the comparison key of every transformed data row is
carried by exactly one retained row — so two rows whose column-A values become
equal after replacement (and agree on the other comparison columns) collapse
to a single retained row. -/
theorem c1_transform_before_dedup (repls : List (Str × Str)) (sdEmptyK : Bool)
    (cols : List Nat) (maxCols : Nat) (rows : List (List Str)) :
    step4DataRows repls sdEmptyK cols maxCols rows
        = extractUniqueRows cols maxCols (transformDataRows repls sdEmptyK rows) ∧
    ∀ r ∈ transformDataRows repls sdEmptyK rows,
      (((step4DataRows repls sdEmptyK cols maxCols rows).map
          (comparisonKey cols
            (min (sheetMaxCol (transformDataRows repls sdEmptyK rows)) maxCols))).filter
        (fun k => k = comparisonKey cols
          (min (sheetMaxCol (transformDataRows repls sdEmptyK rows)) maxCols) r)).length = 1 := by
  refine ⟨rfl, ?_⟩
  intro r hr
  exact extractUniqueRows_count_one cols maxCols (transformDataRows repls sdEmptyK rows) r hr

/-- Witness for C1: two rows that collide on column A only after the
case-insensitive replacement ("AB " and "ab" both become "Z") are represented
by exactly one retained row. -/
theorem c1_transform_before_dedup_witness :
    (((step4DataRows [("ab".toList, "Z".toList)] true [1] 20
        [["AB ".toList], ["ab".toList]]).map
        (comparisonKey [1]
          (min (sheetMaxCol (transformDataRows [("ab".toList, "Z".toList)] true
            [["AB ".toList], ["ab".toList]])) 20))).filter
      (fun k => k = comparisonKey [1]
        (min (sheetMaxCol (transformDataRows [("ab".toList, "Z".toList)] true
          [["AB ".toList], ["ab".toList]])) 20) ["Z".toList])).length = 1 :=
  (c1_transform_before_dedup [("ab".toList, "Z".toList)] true [1] 20
      [["AB ".toList], ["ab".toList]]).2 ["Z".toList] (by decide)

/-! ### Orchestrator (`CorePipeline.process_complete_pipeline`) -/

/-- Aggregated results of a pipeline run (the `results` dictionary). -/
structure PipelineResults where
  success_count : Nat
  failed_count : Nat
  step4_files : List (Str × Str)
  failed_sheets : List Str
  total_sheets : Nat
deriving DecidableEq

/-- The per-sheet body of the orchestrator loop: on success the Step-4 file is
recorded, on any exception the sheet is appended to `failed_sheets` and the
loop continues with the next sheet.  The four stages for one sheet are
abstracted as `step`, which either returns the Step-4 file path or raises
(`Except.error`). -/
def pipelineSheetStep (step : Str → Except Str Str) (res : PipelineResults)
    (sheet : Str) : PipelineResults :=
  match step sheet with
  | Except.ok p =>
    { res with
      success_count := res.success_count + 1
      step4_files := res.step4_files ++ [(sheet, p)] }
  | Except.error _ =>
    { res with
      failed_count := res.failed_count + 1
      failed_sheets := res.failed_sheets ++ [sheet] }

/-- `process_complete_pipeline`: fold the per-sheet body over the sheet list,
starting from zeroed counters and `total_sheets = len(sheet_names)`. -/
def processCompletePipeline (step : Str → Except Str Str) (sheetNames : List Str) :
    PipelineResults :=
  sheetNames.foldl (pipelineSheetStep step)
    { success_count := 0, failed_count := 0, step4_files := [], failed_sheets := [],
      total_sheets := sheetNames.length }

/-- The Step-4 path of a successful sheet. -/
def okResult (step : Str → Except Str Str) (s : Str) : Str :=
  match step s with
  | Except.ok p => p
  | Except.error _ => []

theorem length_filter_add_length_filter_not {α : Type} (p : α → Bool) :
    ∀ l : List α, (l.filter p).length + (l.filter (fun a => !(p a))).length = l.length := by
  intro l
  induction l with
  | nil => rfl
  | cons a l ih =>
    by_cases ha : p a
    · rw [List.filter_cons_of_pos ha, List.filter_cons_of_neg (by simp [ha])]
      simp only [List.length_cons]
      omega
    · rw [List.filter_cons_of_neg (by simpa using ha),
        List.filter_cons_of_pos (by simp [ha])]
      simp only [List.length_cons]
      omega

theorem pipelineFold_success (step : Str → Except Str Str) :
    ∀ (sheets : List Str) (res : PipelineResults),
      (sheets.foldl (pipelineSheetStep step) res).success_count
        = res.success_count + (sheets.filter (fun s => (step s).isOk)).length := by
  intro sheets
  induction sheets with
  | nil => intro res; simp
  | cons s rest ih =>
    intro res
    rw [List.foldl_cons, ih]
    cases hs : step s with
    | ok p =>
      have hok : (step s).isOk = true := by rw [hs]; rfl
      simp [pipelineSheetStep, hs, List.filter_cons, hok, Except.isOk, Except.toBool]
      omega
    | error e =>
      have hok : (step s).isOk = false := by rw [hs]; rfl
      simp [pipelineSheetStep, hs, List.filter_cons, hok, Except.isOk, Except.toBool]

theorem pipelineFold_failed (step : Str → Except Str Str) :
    ∀ (sheets : List Str) (res : PipelineResults),
      (sheets.foldl (pipelineSheetStep step) res).failed_count
        = res.failed_count + (sheets.filter (fun s => !(step s).isOk)).length := by
  intro sheets
  induction sheets with
  | nil => intro res; simp
  | cons s rest ih =>
    intro res
    rw [List.foldl_cons, ih]
    cases hs : step s with
    | ok p =>
      have hok : (step s).isOk = true := by rw [hs]; rfl
      simp [pipelineSheetStep, hs, List.filter_cons, hok, Except.isOk, Except.toBool]
    | error e =>
      have hok : (step s).isOk = false := by rw [hs]; rfl
      simp [pipelineSheetStep, hs, List.filter_cons, hok, Except.isOk, Except.toBool]
      omega

theorem pipelineFold_files (step : Str → Except Str Str) :
    ∀ (sheets : List Str) (res : PipelineResults),
      (sheets.foldl (pipelineSheetStep step) res).step4_files
        = res.step4_files
          ++ (sheets.filter (fun s => (step s).isOk)).map (fun s => (s, okResult step s)) := by
  intro sheets
  induction sheets with
  | nil => intro res; simp
  | cons s rest ih =>
    intro res
    rw [List.foldl_cons, ih]
    cases hs : step s with
    | ok p =>
      have hok : (step s).isOk = true := by rw [hs]; rfl
      have hres : okResult step s = p := by rw [okResult, hs]
      simp [pipelineSheetStep, hs, List.filter_cons, hok, hres, Except.isOk, Except.toBool]
    | error e =>
      have hok : (step s).isOk = false := by rw [hs]; rfl
      simp [pipelineSheetStep, hs, List.filter_cons, hok, Except.isOk, Except.toBool]

theorem pipelineFold_failedSheets (step : Str → Except Str Str) :
    ∀ (sheets : List Str) (res : PipelineResults),
      (sheets.foldl (pipelineSheetStep step) res).failed_sheets
        = res.failed_sheets ++ sheets.filter (fun s => !(step s).isOk) := by
  intro sheets
  induction sheets with
  | nil => intro res; simp
  | cons s rest ih =>
    intro res
    rw [List.foldl_cons, ih]
    cases hs : step s with
    | ok p =>
      have hok : (step s).isOk = true := by rw [hs]; rfl
      simp [pipelineSheetStep, hs, List.filter_cons, hok, Except.isOk, Except.toBool]
    | error e =>
      have hok : (step s).isOk = false := by rw [hs]; rfl
      simp [pipelineSheetStep, hs, List.filter_cons, hok, Except.isOk, Except.toBool]

theorem pipelineFold_total (step : Str → Except Str Str) :
    ∀ (sheets : List Str) (res : PipelineResults),
      (sheets.foldl (pipelineSheetStep step) res).total_sheets = res.total_sheets := by
  intro sheets
  induction sheets with
  | nil => intro res; rfl
  | cons s rest ih =>
    intro res
    rw [List.foldl_cons, ih]
    cases hs : step s with
    | ok p => simp [pipelineSheetStep, hs]
    | error e => simp [pipelineSheetStep, hs]

/-- C8: per-sheet failure isolation.  For every abstract per-sheet outcome
function and sheet list: success and failure counts sum to the total sheet
count; the failed sheets are exactly the sheets whose processing raised, in
order; the Step-4 outputs are exactly those of the successful sheets, in
order; and when a sheet fails, the Step-4 outputs are the same as for the run
with that sheet absent, and the sheet is recorded in `failed_sheets`. -/
theorem c8_per_sheet_isolation (step : Str → Except Str Str) (sheets : List Str) :
    (processCompletePipeline step sheets).success_count
        + (processCompletePipeline step sheets).failed_count
      = (processCompletePipeline step sheets).total_sheets ∧
    (processCompletePipeline step sheets).total_sheets = sheets.length ∧
    (processCompletePipeline step sheets).failed_sheets
      = sheets.filter (fun s => !(step s).isOk) ∧
    (processCompletePipeline step sheets).step4_files
      = (sheets.filter (fun s => (step s).isOk)).map (fun s => (s, okResult step s)) ∧
    (∀ pre b post, sheets = pre ++ b :: post → (step b).isOk = false →
      (processCompletePipeline step sheets).step4_files
          = (processCompletePipeline step (pre ++ post)).step4_files ∧
        b ∈ (processCompletePipeline step sheets).failed_sheets) := by
  have hsuc := pipelineFold_success step sheets
    { success_count := 0, failed_count := 0, step4_files := [], failed_sheets := [],
      total_sheets := sheets.length }
  have hfail := pipelineFold_failed step sheets
    { success_count := 0, failed_count := 0, step4_files := [], failed_sheets := [],
      total_sheets := sheets.length }
  have hfiles := pipelineFold_files step sheets
    { success_count := 0, failed_count := 0, step4_files := [], failed_sheets := [],
      total_sheets := sheets.length }
  have hfs := pipelineFold_failedSheets step sheets
    { success_count := 0, failed_count := 0, step4_files := [], failed_sheets := [],
      total_sheets := sheets.length }
  have htot := pipelineFold_total step sheets
    { success_count := 0, failed_count := 0, step4_files := [], failed_sheets := [],
      total_sheets := sheets.length }
  simp only [processCompletePipeline] at *
  rw [hsuc, hfail, hfiles, hfs, htot]
  simp only [List.nil_append, Nat.zero_add]
  refine ⟨length_filter_add_length_filter_not _ sheets, by trivial, by trivial, by trivial, ?_⟩
  intro pre b post hsheets hbfail
  have hfiles2 := pipelineFold_files step (pre ++ post)
    { success_count := 0, failed_count := 0, step4_files := [], failed_sheets := [],
      total_sheets := (pre ++ post).length }
  rw [hfiles2]
  constructor
  · rw [hsheets]
    simp [List.filter_append, List.filter_cons, hbfail]
  · rw [hsheets]
    simp only [List.filter_append, List.filter_cons, hbfail, Bool.not_false, if_true]
    refine List.mem_append_right _ ?_
    simp

/-! ### Python string helpers used by the filename derivations -/

theorem containsSub_cons (pat : Str) (c : Char) (rest : Str) :
    containsSub pat (c :: rest) = (pat.isPrefixOf (c :: rest) || containsSub pat rest) := rfl

theorem containsSub_of_isPrefixOf {pat s : Str} (h : pat.isPrefixOf s = true) (hs : s ≠ []) :
    containsSub pat s = true := by
  cases s with
  | nil => exact absurd rfl hs
  | cons c rest => rw [containsSub_cons, h]; rfl

/-- Python `s.replace(pat, "")`, fuelled for structural recursion: remove the
occurrences of `pat` left to right without rescanning the produced text. -/
def pyRemoveAux (pat : Str) : Nat → Str → Str
  | _, [] => []
  | 0, s => s
  | fuel + 1, c :: rest =>
    if pat ≠ [] ∧ pat.isPrefixOf (c :: rest) then
      pyRemoveAux pat fuel (rest.drop (pat.length - 1))
    else c :: pyRemoveAux pat fuel rest

/-- Python `s.replace(pat, "")` (the fuel `s.length` always suffices). -/
def pyRemove (pat s : Str) : Str := pyRemoveAux pat s.length s

/-- Python `s.split(sep)`, fuelled: split at the occurrences of `sep`,
scanning left to right without overlap. -/
def pySplitAux (sep : Str) : Nat → Str → List Str
  | _, [] => [[]]
  | 0, s => [s]
  | fuel + 1, c :: rest =>
    if sep ≠ [] ∧ sep.isPrefixOf (c :: rest) then
      [] :: pySplitAux sep fuel (rest.drop (sep.length - 1))
    else
      match pySplitAux sep fuel rest with
      | [] => [[c]]
      | f :: fs => (c :: f) :: fs

/-- Python `s.split(sep)`. -/
def pySplit (sep s : Str) : List Str := pySplitAux sep s.length s

theorem pySplitAux_ne_nil (sep : Str) : ∀ (fuel : Nat) (s : Str), pySplitAux sep fuel s ≠ [] := by
  intro fuel s
  match fuel, s with
  | _, [] => simp [pySplitAux]
  | 0, c :: rest => simp [pySplitAux]
  | n + 1, c :: rest =>
    simp only [pySplitAux]
    split
    · simp
    · split <;> simp

theorem pySplit_ne_nil (sep s : Str) : pySplit sep s ≠ [] := pySplitAux_ne_nil sep s.length s

theorem pySplitAux_join (sep : Str) :
    ∀ (fuel : Nat) (s : Str), s.length ≤ fuel →
      joinSep sep (pySplitAux sep fuel s) = s := by
  intro fuel
  induction fuel with
  | zero =>
    intro s hs
    cases s with
    | nil => rfl
    | cons c rest => simp at hs
  | succ n ih =>
    intro s hs
    cases s with
    | nil => rfl
    | cons c rest =>
      have hrest : rest.length ≤ n := by
        simp only [List.length_cons] at hs
        omega
      simp only [pySplitAux]
      by_cases h : sep ≠ [] ∧ sep.isPrefixOf (c :: rest)
      · rw [if_pos h]
        obtain ⟨hsep, hpre⟩ := h
        obtain ⟨t, ht⟩ := List.isPrefixOf_iff_prefix.mp hpre
        obtain ⟨a, as, rfl⟩ : ∃ a as, sep = a :: as := by
          cases sep with
          | nil => exact absurd rfl hsep
          | cons a as => exact ⟨a, as, rfl⟩
        have hac : a = c ∧ as ++ t = rest := by
          have hx := ht
          simp only [List.cons_append, List.cons.injEq] at hx
          exact hx
        obtain ⟨rfl, hast⟩ := hac
        have hdrop : rest.drop ((a :: as).length - 1) = t := by
          rw [← hast]
          simp only [List.length_cons, Nat.add_sub_cancel]
          exact List.drop_left as t
        rw [hdrop]
        have htlen : t.length ≤ n := by
          have hy := congrArg List.length hast
          simp only [List.length_append] at hy
          omega
        cases hfs : pySplitAux (a :: as) n t with
        | nil => exact absurd hfs (pySplitAux_ne_nil (a :: as) n t)
        | cons f fs =>
          have hjoin : joinSep (a :: as) (pySplitAux (a :: as) n t) = t := ih t htlen
          rw [hfs] at hjoin
          show joinSep (a :: as) ([] :: f :: fs) = a :: rest
          have hj3 : joinSep (a :: as) ([] :: f :: fs)
              = [] ++ (a :: as) ++ joinSep (a :: as) (f :: fs) := rfl
          rw [hj3, hjoin, List.nil_append, ← hast]
          simp
      · rw [if_neg h]
        cases hsp : pySplitAux sep n rest with
        | nil => exact absurd hsp (pySplitAux_ne_nil sep n rest)
        | cons f fs =>
          have hjoin : joinSep sep (pySplitAux sep n rest) = rest := ih rest hrest
          rw [hsp] at hjoin
          cases fs with
          | nil =>
            show joinSep sep [c :: f] = c :: rest
            have hjf : joinSep sep [f] = f := rfl
            rw [hjf] at hjoin
            rw [hjoin]
            rfl
          | cons g gs =>
            show joinSep sep ((c :: f) :: g :: gs) = c :: rest
            have hj3 : joinSep sep ((c :: f) :: g :: gs)
                = (c :: f) ++ sep ++ joinSep sep (g :: gs) := rfl
            have hj4 : joinSep sep (f :: g :: gs) = f ++ sep ++ joinSep sep (g :: gs) := rfl
            rw [hj4] at hjoin
            rw [hj3, ← hjoin]
            simp

theorem pySplit_join (sep s : Str) : joinSep sep (pySplit sep s) = s :=
  pySplitAux_join sep s.length s (Nat.le_refl _)

/-- Does `pat` lack a proper border (a non-empty proper prefix that is also a
suffix)?  The step tags " - StepN" all satisfy this. -/
def hasNoBorder (pat : Str) : Bool :=
  (List.range pat.length).all
    (fun k => decide (k = 0) || decide (pat.take k ≠ pat.drop (pat.length - k)))

theorem hasNoBorder_spec {pat : Str} (h : hasNoBorder pat = true) :
    ∀ k, 0 < k → k < pat.length → pat.take k ≠ pat.drop (pat.length - k) := by
  intro k hk0 hklen
  have hall := List.all_eq_true.mp h k (List.mem_range.mpr hklen)
  simp only [Bool.or_eq_true, decide_eq_true_eq] at hall
  rcases hall with h0 | hne
  · omega
  · exact hne

theorem isPrefixOf_pre_append_eq_false (pat pre : Str) (_hpat : pat ≠ [])
    (hnb : hasNoBorder pat = true) (hne : pre ≠ [])
    (hpre : containsSub pat pre = false) :
    pat.isPrefixOf (pre ++ pat) = false := by
  cases hb : pat.isPrefixOf (pre ++ pat) with
  | false => rfl
  | true =>
    exfalso
    obtain ⟨t, ht⟩ := List.isPrefixOf_iff_prefix.mp hb
    by_cases hle : pat.length ≤ pre.length
    · have htake : (pat ++ t).take pat.length = (pre ++ pat).take pat.length := by rw [ht]
      rw [List.take_left' rfl, List.take_append_of_le_length hle] at htake
      have hpp : pat.isPrefixOf pre = true := by
        apply List.isPrefixOf_iff_prefix.mpr
        refine ⟨pre.drop pat.length, ?_⟩
        nth_rewrite 1 [htake]
        exact List.take_append_drop _ _
      rw [containsSub_of_isPrefixOf hpp hne] at hpre
      exact Bool.noConfusion hpre
    · push_neg at hle
      have htake : (pat ++ t).take pre.length = (pre ++ pat).take pre.length := by rw [ht]
      rw [List.take_append_of_le_length (Nat.le_of_lt hle), List.take_left' rfl] at htake
      have hdrop : (pat ++ t).drop pre.length = (pre ++ pat).drop pre.length := by rw [ht]
      rw [List.drop_append_of_le_length (Nat.le_of_lt hle), List.drop_left' rfl] at hdrop
      have hm0 : 0 < pre.length := List.length_pos.mpr hne
      have hborder : pat.take (pat.length - pre.length)
          = pat.drop (pat.length - (pat.length - pre.length)) := by
        have hlen : (pat.drop pre.length).length = pat.length - pre.length := by simp
        have htk : (pat.drop pre.length ++ t).take (pat.length - pre.length)
            = pat.take (pat.length - pre.length) := by rw [hdrop]
        rw [List.take_left' hlen] at htk
        rw [← htk]
        congr 1
        omega
      exact hasNoBorder_spec hnb (pat.length - pre.length) (by omega) (by omega) hborder

theorem pyRemoveAux_no_occur (pat : Str) :
    ∀ (fuel : Nat) (s : Str), s.length ≤ fuel → containsSub pat s = false →
      pyRemoveAux pat fuel s = s := by
  intro fuel
  induction fuel with
  | zero =>
    intro s hs _
    cases s with
    | nil => rfl
    | cons c rest => simp at hs
  | succ n ih =>
    intro s hs hc
    cases s with
    | nil => rfl
    | cons c rest =>
      rw [containsSub_cons] at hc
      have hc1 : pat.isPrefixOf (c :: rest) = false := by
        cases hx : pat.isPrefixOf (c :: rest)
        · rfl
        · rw [hx] at hc; exact Bool.noConfusion hc
      have hc2 : containsSub pat rest = false := by
        cases hx : containsSub pat rest
        · rfl
        · rw [hx, Bool.or_true] at hc; exact Bool.noConfusion hc
      simp only [pyRemoveAux]
      rw [if_neg (by simp [hc1])]
      have hrest : rest.length ≤ n := by
        simp only [List.length_cons] at hs
        omega
      rw [ih rest hrest hc2]

theorem pyRemoveAux_strip_tag (pat : Str) (hpat : pat ≠ [])
    (hnb : hasNoBorder pat = true) :
    ∀ (fuel : Nat) (pre : Str), (pre ++ pat).length ≤ fuel →
      containsSub pat pre = false → pyRemoveAux pat fuel (pre ++ pat) = pre := by
  intro fuel
  induction fuel with
  | zero =>
    intro pre hlen _
    cases hp : pat with
    | nil => exact absurd hp hpat
    | cons a as =>
      rw [hp] at hlen
      simp at hlen
  | succ n ih =>
    intro pre hlen hpre
    cases pre with
    | nil =>
      rw [List.nil_append]
      obtain ⟨a, as, hp⟩ : ∃ a as, pat = a :: as := by
        cases pat with
        | nil => exact absurd rfl hpat
        | cons a as => exact ⟨a, as, rfl⟩
      rw [hp]
      simp only [pyRemoveAux]
      rw [if_pos ⟨by simp, List.isPrefixOf_iff_prefix.mpr (List.prefix_refl _)⟩]
      simp only [List.length_cons, Nat.add_sub_cancel, List.drop_length]
      cases n <;> rfl
    | cons c pre' =>
      have hfalse : pat.isPrefixOf ((c :: pre') ++ pat) = false :=
        isPrefixOf_pre_append_eq_false pat (c :: pre') hpat hnb (by simp) hpre
      show pyRemoveAux pat (n + 1) (c :: (pre' ++ pat)) = c :: pre'
      simp only [pyRemoveAux]
      rw [if_neg (by
        rintro ⟨h1, h2⟩
        rw [show c :: (pre' ++ pat) = (c :: pre') ++ pat from rfl, hfalse] at h2
        exact Bool.noConfusion h2)]
      have hc2 : containsSub pat pre' = false := by
        rw [containsSub_cons] at hpre
        cases hx : containsSub pat pre'
        · rfl
        · rw [hx, Bool.or_true] at hpre; exact Bool.noConfusion hpre
      have hlen' : (pre' ++ pat).length ≤ n := by
        simp only [List.cons_append, List.length_cons] at hlen
        simp only [List.length_append]
        simp only [List.length_append] at hlen
        omega
      rw [ih pre' hlen' hc2]

theorem pyRemove_strip_tag (pat pre : Str) (hpat : pat ≠ [])
    (hnb : hasNoBorder pat = true) (hpre : containsSub pat pre = false) :
    pyRemove pat (pre ++ pat) = pre :=
  pyRemoveAux_strip_tag pat hpat hnb (pre ++ pat).length pre (Nat.le_refl _) hpre

/-! ### Filename derivation (`_get_step2_filename` / `_get_step3_filename` /
`_get_step4_filename`) -/

/-- Python `PurePath.stem`: the final path component minus its suffix; a
suffix exists only when the last dot sits strictly inside the name
(`0 < i < len(name) - 1`). -/
def pyStem (name : Str) : Str :=
  match name.reverse.findIdx? (fun c => c = '.') with
  | some k =>
    if 0 < name.length - 1 - k ∧ name.length - 1 - k < name.length - 1 then
      name.take (name.length - 1 - k)
    else name
  | none => name

/-- Python `PurePath.name`: the part after the last path separator. -/
def pyName (p : Str) : Str :=
  match p.reverse.findIdx? (fun c => c = '/') with
  | some k => p.drop (p.length - k)
  | none => p

/-- The base/sheet split of `_get_stepN_filename`: remove every occurrence of
the previous step's tag from the stem, split on " - "; with two or more
fragments the last is the sheet name and the rest rejoin as the base name,
otherwise the sheet name is "Unknown". -/
def parseStemParts (stripTag : Str) (stem : Str) : Str × Str :=
  let base := pyRemove stripTag stem
  let parts := pySplit (" - ".toList) base
  if parts.length ≥ 2 then
    (joinSep (" - ".toList) parts.dropLast, parts.getLastD [])
  else (base, "Unknown".toList)

/-- The next step's output filename, from the spec's template
`"{base_name} - {sheet_name} - StepN.xlsx"`. -/
def stepFilename (nextTag : Str) (base sheet : Str) : Str :=
  base ++ " - ".toList ++ sheet ++ nextTag ++ ".xlsx".toList

/-- A step's filename derivation: parse the previous stem, format the next. -/
def getNextStepFilename (stripTag nextTag : Str) (stem : Str) : Str :=
  stepFilename nextTag (parseStemParts stripTag stem).1 (parseStemParts stripTag stem).2

/-- C10 counterexample: base name "A" and sheet name "Step1" (which contains
no " - ") do not round-trip through the Step-2 derivation: `str.replace`
removes every occurrence of " - Step1", so the sheet name collapses into the
tag and the derivation yields sheet "Unknown" instead of "Step1". -/
theorem c10_counterexample :
    parseStemParts (" - Step1".toList)
        ("A".toList ++ " - ".toList ++ "Step1".toList ++ " - Step1".toList)
      = ("A".toList, "Unknown".toList) ∧
    containsSub (" - ".toList) ("Step1".toList) = false ∧
    ("Unknown".toList : Str) ≠ "Step1".toList := by
  exact ⟨by decide, by decide, by decide⟩

/-- C10 (amended): the round-trip holds under the conditions the counterexample
forces: when the combined stem "{base} - {sheet}" contains no occurrence of the
previous step's tag and its " - "-split is the base's fragments followed by the
sheet name (so in particular the sheet name has no " - " and does not collide
with the tag), the derivation recovers exactly the original base and sheet and
produces the next step's templated filename. -/
theorem c10_filename_roundtrip (stripTag nextTag base sheet : Str)
    (htag : stripTag ≠ [])
    (hnb : hasNoBorder stripTag = true)
    (hnoocc : containsSub stripTag (base ++ " - ".toList ++ sheet) = false)
    (hsplit : pySplit (" - ".toList) (base ++ " - ".toList ++ sheet)
        = pySplit (" - ".toList) base ++ [sheet]) :
    parseStemParts stripTag (base ++ " - ".toList ++ sheet ++ stripTag) = (base, sheet) ∧
    getNextStepFilename stripTag nextTag (base ++ " - ".toList ++ sheet ++ stripTag)
      = base ++ " - ".toList ++ sheet ++ nextTag ++ ".xlsx".toList := by
  have hstrip : pyRemove stripTag (base ++ " - ".toList ++ sheet ++ stripTag)
      = base ++ " - ".toList ++ sheet := by
    have h1 : base ++ " - ".toList ++ sheet ++ stripTag
        = (base ++ " - ".toList ++ sheet) ++ stripTag := by
      simp [List.append_assoc]
    rw [h1]
    exact pyRemove_strip_tag stripTag (base ++ " - ".toList ++ sheet) htag hnb hnoocc
  have hparts : pySplit (" - ".toList)
      (pyRemove stripTag (base ++ " - ".toList ++ sheet ++ stripTag))
      = pySplit (" - ".toList) base ++ [sheet] := by
    rw [hstrip, hsplit]
  have hbne : pySplit (" - ".toList) base ≠ [] := pySplit_ne_nil _ _
  have hlen2 : (pySplit (" - ".toList) base ++ [sheet]).length ≥ 2 := by
    have := List.length_pos.mpr hbne
    simp only [List.length_append, List.length_cons, List.length_nil]
    omega
  have hparse : parseStemParts stripTag (base ++ " - ".toList ++ sheet ++ stripTag)
      = (base, sheet) := by
    unfold parseStemParts
    simp only [hparts, if_pos hlen2]
    rw [List.dropLast_concat, List.getLastD_concat, pySplit_join]
  refine ⟨hparse, ?_⟩
  unfold getNextStepFilename
  rw [hparse]
  rfl

/-- Witness for C10 (amended) at concrete names. -/
theorem c10_filename_roundtrip_witness :
    parseStemParts (" - Step1".toList)
        ("My File".toList ++ " - ".toList ++ "Sheet1".toList ++ " - Step1".toList)
      = ("My File".toList, "Sheet1".toList) ∧
    getNextStepFilename (" - Step1".toList) (" - Step2".toList)
        ("My File".toList ++ " - ".toList ++ "Sheet1".toList ++ " - Step1".toList)
      = "My File".toList ++ " - ".toList ++ "Sheet1".toList ++ " - Step2".toList
          ++ ".xlsx".toList :=
  c10_filename_roundtrip (" - Step1".toList) (" - Step2".toList)
    ("My File".toList) ("Sheet1".toList)
    (by decide) (by decide) (by decide) (by decide)

/-! ### Stage 4 as a file-system operation (`remove_duplicates`) -/

/-- A spreadsheet document: header block, data rows, and merged ranges
(styles travel with the modelled cell values). -/
structure Document where
  headerRows : List (List Str)
  dataRows : List (List Str)
  merges : List Str
deriving DecidableEq

/-- The in-memory Step-4 document built from a loaded Step-3 document
(`_apply_data_transformations` + `_extract_unique_rows` +
`_create_deduplicated_file`): header block and merged ranges are copied from
the source, and the data rows are transformed and then deduplicated. -/
def step4Document (repls : List (Str × Str)) (sdEmptyK : Bool) (cols : List Nat)
    (maxCols : Nat) (d : Document) : Document :=
  { headerRows := d.headerRows
    dataRows := step4DataRows repls sdEmptyK cols maxCols d.dataRows
    merges := d.merges }

/-- `_get_step4_filename`: the Step-4 output path derived from a Step-3 path,
placed in the output directory. -/
def step4Path (outDir : Str) (step3Path : Str) : Str :=
  outDir ++ '/' :: getNextStepFilename (" - Step3".toList) (" - Step4".toList)
    (pyStem (pyName step3Path))

/-- The file system, a map from paths to documents. -/
def FileSystem : Type := Str → Option Document

/-- `remove_duplicates` acting on the file system: load the Step-3 document,
build the Step-4 document from an in-memory copy, and write only the new
Step-4 file; when loading fails, the exception propagates and nothing is
written. -/
def removeDuplicatesFS (repls : List (Str × Str)) (sdEmptyK : Bool) (cols : List Nat)
    (maxCols : Nat) (outDir : Str) (fs : FileSystem) (step3Path : Str) : FileSystem :=
  match fs step3Path with
  | none => fs
  | some d => fun q =>
      if q = step4Path outDir step3Path
      then some (step4Document repls sdEmptyK cols maxCols d)
      else fs q

theorem step4Path_shape (outDir p : Str) :
    ∃ pre2, step4Path outDir p = pre2 ++ " - Step4.xlsx".toList := by
  refine ⟨outDir ++ '/' ::
    ((parseStemParts (" - Step3".toList) (pyStem (pyName p))).1
      ++ " - ".toList
      ++ (parseStemParts (" - Step3".toList) (pyStem (pyName p))).2), ?_⟩
  unfold step4Path getNextStepFilename stepFilename
  have htail : (" - Step4".toList : Str) ++ ".xlsx".toList = " - Step4.xlsx".toList := by
    decide
  rw [← htail]
  simp [List.append_assoc]

theorem step3Path_ne_step4Path (outDir p : Str)
    (hp : ∃ pre, p = pre ++ " - Step3.xlsx".toList) :
    p ≠ step4Path outDir p := by
  obtain ⟨pre, rfl⟩ := hp
  obtain ⟨pre2, hshape⟩ := step4Path_shape outDir (pre ++ " - Step3.xlsx".toList)
  rw [hshape]
  intro heq
  have hlen : (" - Step3.xlsx".toList : Str).length = (" - Step4.xlsx".toList : Str).length := by
    decide
  have := (List.append_inj' heq hlen).2
  exact absurd this (by decide)

/-- C9: the Deduplicator never mutates its input.  For every file system,
output directory and conventionally named Step-3 path: after
`remove_duplicates` the Step-3 path still maps to exactly the document it
held before; every path other than the derived Step-4 path is untouched; and
when the input document exists, the Step-4 path holds the new document built
from the in-memory copy. -/
theorem c9_input_never_mutated (repls : List (Str × Str)) (sdEmptyK : Bool)
    (cols : List Nat) (maxCols : Nat) (outDir : Str) (fs : FileSystem) (p : Str)
    (hp : ∃ pre, p = pre ++ " - Step3.xlsx".toList) :
    removeDuplicatesFS repls sdEmptyK cols maxCols outDir fs p p = fs p ∧
    (∀ q, q ≠ step4Path outDir p →
      removeDuplicatesFS repls sdEmptyK cols maxCols outDir fs p q = fs q) ∧
    (∀ d, fs p = some d →
      removeDuplicatesFS repls sdEmptyK cols maxCols outDir fs p (step4Path outDir p)
        = some (step4Document repls sdEmptyK cols maxCols d)) := by
  have hne := step3Path_ne_step4Path outDir p hp
  cases hload : fs p with
  | none =>
    have hrm : removeDuplicatesFS repls sdEmptyK cols maxCols outDir fs p = fs := by
      unfold removeDuplicatesFS
      rw [hload]
    refine ⟨by rw [hrm]; exact hload, fun q _ => by rw [hrm], fun d hd => Option.noConfusion hd⟩
  | some d =>
    have hrm : removeDuplicatesFS repls sdEmptyK cols maxCols outDir fs p = fun q =>
        if q = step4Path outDir p then some (step4Document repls sdEmptyK cols maxCols d)
        else fs q := by
      unfold removeDuplicatesFS
      rw [hload]
    refine ⟨?_, ?_, ?_⟩
    · rw [hrm]
      simp only [if_neg hne]
      exact hload
    · intro q hq
      rw [hrm]
      simp only [if_neg hq]
    · intro d' hd'
      obtain rfl : d = d' := Option.some.inj hd'
      rw [hrm]
      simp

/-- Witness for C9 at a concrete file system holding one Step-3 file. -/
theorem c9_input_never_mutated_witness :
    removeDuplicatesFS [] false [1] 20 ("out".toList)
        (fun q => if q = "out/A - S - Step3.xlsx".toList
          then some { headerRows := [], dataRows := [["x".toList]], merges := [] }
          else none)
        ("out/A - S - Step3.xlsx".toList) ("out/A - S - Step3.xlsx".toList)
      = (fun q => if q = "out/A - S - Step3.xlsx".toList
          then some { headerRows := [], dataRows := [["x".toList]], merges := [] }
          else none) ("out/A - S - Step3.xlsx".toList) ∧
    (∀ q, q ≠ step4Path ("out".toList) ("out/A - S - Step3.xlsx".toList) →
      removeDuplicatesFS [] false [1] 20 ("out".toList)
          (fun q => if q = "out/A - S - Step3.xlsx".toList
            then some { headerRows := [], dataRows := [["x".toList]], merges := [] }
            else none)
          ("out/A - S - Step3.xlsx".toList) q
        = (fun q => if q = "out/A - S - Step3.xlsx".toList
            then some { headerRows := [], dataRows := [["x".toList]], merges := [] }
            else none) q) ∧
    (∀ d, (fun q => if q = "out/A - S - Step3.xlsx".toList
          then some { headerRows := [], dataRows := [["x".toList]], merges := [] }
          else none) ("out/A - S - Step3.xlsx".toList) = some d →
      removeDuplicatesFS [] false [1] 20 ("out".toList)
          (fun q => if q = "out/A - S - Step3.xlsx".toList
            then some { headerRows := [], dataRows := [["x".toList]], merges := [] }
            else none)
          ("out/A - S - Step3.xlsx".toList)
          (step4Path ("out".toList) ("out/A - S - Step3.xlsx".toList))
        = some (step4Document [] false [1] 20 d)) :=
  c9_input_never_mutated [] false [1] 20 ("out".toList)
    (fun q => if q = "out/A - S - Step3.xlsx".toList
      then some { headerRows := [], dataRows := [["x".toList]], merges := [] }
      else none)
    ("out/A - S - Step3.xlsx".toList)
    ⟨"out/A - S".toList, by decide⟩

end CpcTss
